import Mathlib

/-!
Verification of the core object-and-reference engine of the `gitters`
repository (a read-side git reimplementation in Rust).

The Rust sources are shallowly embedded here:

* `src/revisions.rs`   → `resolveF`, `parentOfCommitF`, `storeParent`
* `src/commits.rs`     → `parseCommitDate`, `headerLoop`, `parseCommit`,
                          `CommitBuilderS.build`
* `src/objects.rs`     → `readUntilB`, `readTypeB`, `readSizeB`, `readHeaderB`
* `src/index.rs`       → `entryRead`, `entriesLoop`, `indexRead`

Strings are modelled as `List Char` (Rust strings are sequences of unicode
scalar values; every byte-indexed slice the source performs happens at an
ASCII character boundary, so scalar-level modelling is faithful).  Raw byte
streams (decompressed objects, the index file) are modelled as `List Nat`
with each element a byte value.  Filesystem reads are modelled by explicit
environment records (`GitFS`, `IdxFS`) whose fields give the contents of the
files the code opens; a `none` field models a missing/unreadable file.
Machine integers are modelled as `Nat`/`Int` with explicit bounds checks
where the source's fixed-width parses can fail.
-/

/-- Shorthand for the model of a Rust `String` / `str`: its scalar values. -/
abbrev Str := List Char

/-- The explicit ASCII class `[0-9]` (code points 0x30–0x39), as written in
`DATETIME_REGEX`; also the digit set accepted by Rust's
`str::parse::<u64>`/`parse::<i64>`/`parse::<i32>`. -/
def isDigitChar (c : Char) : Bool :=
  48 ≤ c.toNat && c.toNat ≤ 57

/-- The code-point ranges of the Unicode general category `Nd` (decimal
number), Unicode 9.0 — the table behind the regex crate's `\d`
(`\p{Nd}`), which is Unicode by default and strictly larger than
`[0-9]`. -/
def ndDigitRanges : List (Nat × Nat) :=
  [(0x30, 0x39), (0x660, 0x669), (0x6F0, 0x6F9), (0x7C0, 0x7C9),
   (0x966, 0x96F), (0x9E6, 0x9EF), (0xA66, 0xA6F), (0xAE6, 0xAEF),
   (0xB66, 0xB6F), (0xBE6, 0xBEF), (0xC66, 0xC6F), (0xCE6, 0xCEF),
   (0xD66, 0xD6F), (0xDE6, 0xDEF), (0xE50, 0xE59), (0xED0, 0xED9),
   (0xF20, 0xF29), (0x1040, 0x1049), (0x1090, 0x1099), (0x17E0, 0x17E9),
   (0x1810, 0x1819), (0x1946, 0x194F), (0x19D0, 0x19D9), (0x1A80, 0x1A89),
   (0x1A90, 0x1A99), (0x1B50, 0x1B59), (0x1BB0, 0x1BB9), (0x1C40, 0x1C49),
   (0x1C50, 0x1C59), (0xA620, 0xA629), (0xA8D0, 0xA8D9), (0xA900, 0xA909),
   (0xA9D0, 0xA9D9), (0xA9F0, 0xA9F9), (0xAA50, 0xAA59), (0xABF0, 0xABF9),
   (0xFF10, 0xFF19), (0x104A0, 0x104A9), (0x11066, 0x1106F),
   (0x110F0, 0x110F9), (0x11136, 0x1113F), (0x111D0, 0x111D9),
   (0x112F0, 0x112F9), (0x11450, 0x11459), (0x114D0, 0x114D9),
   (0x11650, 0x11659), (0x116C0, 0x116C9), (0x11730, 0x11739),
   (0x118E0, 0x118E9), (0x11C50, 0x11C59), (0x16A60, 0x16A69),
   (0x16B50, 0x16B59), (0x1D7CE, 0x1D7FF), (0x1E950, 0x1E959)]

/-- The regex crate's `\d`: a Unicode decimal digit (`\p{Nd}`). -/
def isNdDigit (c : Char) : Bool :=
  ndDigitRanges.any (fun p => p.1 ≤ c.toNat && c.toNat ≤ p.2)

/-- `[0-9a-f]`: lower-case hexadecimal digit, as in the SHA-1 regexes. -/
def isHexChar (c : Char) : Bool :=
  ('0' ≤ c && c ≤ '9') || ('a' ≤ c && c ≤ 'f')

/-- The Unicode `White_Space` property, which is what Rust's
`char::is_whitespace` (used by `str::trim`) and the regex class `\s` test. -/
def isWhiteChar (c : Char) : Bool :=
  c.toNat ∈ ([0x9, 0xA, 0xB, 0xC, 0xD, 0x20, 0x85, 0xA0, 0x1680,
    0x2000, 0x2001, 0x2002, 0x2003, 0x2004, 0x2005, 0x2006, 0x2007,
    0x2008, 0x2009, 0x200A, 0x2028, 0x2029, 0x202F, 0x205F, 0x3000] : List Nat)

/-- Rust `str::trim`: drop leading and trailing whitespace. -/
def rustTrim (l : Str) : Str :=
  ((l.dropWhile isWhiteChar).reverse.dropWhile isWhiteChar).reverse

/-- Numeric value of a digit character. -/
def digitVal (c : Char) : Nat :=
  c.toNat - 48

/-- Value of a decimal digit string (most significant digit first). -/
def digitsVal (l : Str) : Nat :=
  l.foldl (fun a c => 10 * a + digitVal c) 0

/-- Standard decimal representation of a natural number (no sign, no
leading zeros); this is the `decimal(N)` of the specification. -/
def toDecimal (n : Nat) : Str :=
  if h : n < 10 then [Char.ofNat (48 + n)]
  else toDecimal (n / 10) ++ [Char.ofNat (48 + n % 10)]
decreasing_by exact Nat.div_lt_self (by omega) (by omega)

/-- Rust `str::parse::<u64>` on the `num` capture of `ANCESTOR_REGEX`.
The capture is nonempty `\p{Nd}` digits, but `parse::<u64>` accepts only
ASCII `[0-9]` (its optional leading `+` cannot occur in the capture), so
parsing succeeds exactly when the capture is all ASCII digits with value
below `2^64`; a capture holding non-ASCII decimal digits fails, yielding
`InvalidRevision`. -/
def parseU64digits (l : Str) : Option Nat :=
  if l ≠ [] ∧ l.all isDigitChar ∧ digitsVal l < 2 ^ 64 then some (digitsVal l)
  else none

/-- Generic `Except` iteration: apply a fallible step `n` times, stopping at
the first error.  This is the `for _ in 0..num` loop shape of
`revisions::resolve` and the spec's `iterate(parent, N, ·)`. -/
def iterE {ε α : Type} (step : α → Except ε α) : Nat → α → Except ε α
  | 0, a => .ok a
  | n + 1, a => step a >>= iterE step n

deriving instance DecidableEq for Except

set_option maxRecDepth 1000000

/-! ## Data model (`src/objects.rs`, `src/commits.rs`)

`objects::Name` is an opaque wrapper over the 40-hex string. -/

/-- `objects::Name(pub String)`. -/
structure Name where
  val : Str
deriving DecidableEq

/-- `chrono::DateTime<FixedOffset>`: a UTC instant (seconds since the Unix
epoch) paired with a fixed timezone offset in seconds.  `commits.rs` names
this `CommitDateTime`. -/
structure CommitDateTime where
  secs : Int
  offset : Int
deriving DecidableEq

/-- `commits::CommitUser { name, date }`. -/
structure CommitUser where
  name : Str
  date : CommitDateTime
deriving DecidableEq

/-- `commits::Commit`: the fully parsed commit record. -/
structure Commit where
  name : Name
  tree : Name
  parent : Option Name
  author : CommitUser
  committer : CommitUser
  message : Str
deriving DecidableEq

/-- The typed object handed back by the object store.  Modelled from the
spec: §3 "Object — tagged variant {Blob, Tree, Commit(CommitRecord)}";
`src/objects.rs` in this snapshot still returns `()` from `read_object`
while `src/revisions.rs` already pattern-matches
`objects::Object::Commit(commits::Commit { parent, .. })`, so the
`Object` enum itself is reconstructed from the spec and that use site. -/
inductive Obj where
  | blob : Obj
  | tree : Obj
  | commit : Commit → Obj
deriving DecidableEq

/-! ## Revision resolution (`src/revisions.rs`) -/

/-- `revisions::Error`.  The source has the single variant
`InvalidRevision`; `panicked` models the `assert!` on ambiguous partial
SHA-1s (a process abort, not an `Err`), and `outOfFuel` is an artifact of
totalizing the recursive evaluator with a fuel parameter. -/
inductive RevError where
  | invalidRevision : RevError
  | panicked : RevError
  | outOfFuel : RevError
deriving DecidableEq

/-- The filesystem as seen by `revisions::resolve`: contents of `.git/HEAD`,
of an arbitrary file under `.git/` (for the symbolic-ref target), of
`.git/refs/heads/<branch>`, the filename listing of
`.git/objects/<2-hex>/`, and the object store consulted through
`objects::read_object` (whose own errors `resolve` collapses into
`InvalidRevision`, so `Option` suffices). -/
structure GitFS where
  headFile : Option Str
  gitFile : Str → Option Str
  branchFile : Str → Option Str
  objectsDir : Str → Option (List Str)
  readObject : Name → Option Obj

/-- `rev.ends_with("^")`. -/
def endsWithCaret (l : Str) : Bool :=
  l.getLast? = some '^'

/-- `FULL_SHA1_REGEX`: `^[0-9a-f]{40}$`. -/
def isFullSha (l : Str) : Bool :=
  l.length = 40 && l.all isHexChar

/-- `PARTIAL_SHA1_REGEX`: `^[0-9a-f]{4,39}$`. -/
def isPartialSha (l : Str) : Bool :=
  4 ≤ l.length && l.length ≤ 39 && l.all isHexChar

/-- `ANCESTOR_REGEX`: `^(?P<child>.+)~(?P<num>\d+)$` under the regex
crate's default semantics: `\d` is the Unicode class `Nd` and `.` matches
anything *except* `\n`.  Since `~` is not an `Nd` digit, the only possible
separator is the `~` immediately before the maximal `Nd`-digit suffix, so
a match requires that suffix to be nonempty, the character before it to be
`~`, and the greedy `child` capture — everything before that `~` — to be
nonempty and newline-free (`.+` cannot cross a `\n`). -/
def ancestorSplit (l : Str) : Option (Str × Str) :=
  let rd := l.reverse.takeWhile isNdDigit
  if rd = [] then none
  else
    match l.reverse.dropWhile isNdDigit with
    | '~' :: pre =>
      if pre = [] then none
      else if pre.any (fun c => c = '\n') then none
      else some (pre.reverse, rd.reverse)
    | _ => none

/-- `SYMBOLIC_REF_REGEX`: `^ref: (?P<ref>.+)\s*$` (regex crate defaults:
`.` does not match `\n`, `$` is end of text, `\s` is Unicode whitespace).
It matches iff the contents start with `"ref: "`, the rest of that first
line is nonempty, and everything after the first line is whitespace; the
greedy capture is the whole rest of the first line. -/
def symbolicRefCapture (l : Str) : Option Str :=
  if ("ref: ".toList).isPrefixOf l then
    let a := l.drop 5
    let r := a.takeWhile (fun c => c ≠ '\n')
    if r = [] then none
    else if (a.drop r.length).all isWhiteChar then some r else none
  else none

/-- The object-store part of `revisions::parent_of_commit` (everything after
the inner `resolve` call): fetch the object named by an already-resolved
identifier and return its (first) parent, mapping every other outcome to
`InvalidRevision`. -/
def storeParent (fs : GitFS) (resolved : Name) : Except RevError Name :=
  match fs.readObject resolved with
  | some (.commit c) =>
    match c.parent with
    | some p => .ok p
    | none => .error .invalidRevision
  | some _ => .error .invalidRevision
  | none => .error .invalidRevision

/-- `revisions::resolve`, totalized with a fuel parameter that is spent on
each recursive call (the Rust recursion has no fuel; every claim below
quantifies over the fuel).  The six alternatives appear in source order:
`"HEAD"`, trailing `"^"`, full SHA-1, partial SHA-1, `~N` ancestor,
branch name fallback. -/
def resolveF (fs : GitFS) : Nat → Str → Except RevError Name
  | 0, _ => .error .outOfFuel
  | f + 1, rev =>
    if rev = "HEAD".toList then
      match fs.headFile with
      | none => .error .invalidRevision
      | some headContents =>
        match symbolicRefCapture headContents with
        | none => .error .invalidRevision
        | some r =>
          match fs.gitFile r with
          | none => .error .invalidRevision
          | some refContents => .ok ⟨rustTrim refContents⟩
    else if endsWithCaret rev then
      resolveF fs f rev.dropLast >>= storeParent fs
    else if isFullSha rev then .ok ⟨rev⟩
    else if isPartialSha rev then
      let dir := rev.take 2
      let rest := rev.drop 2
      match fs.objectsDir dir with
      | none => .error .invalidRevision
      | some files =>
        match files.filter (fun fn => rest.isPrefixOf fn) with
        | [] => .error .invalidRevision
        | [m] => .ok ⟨dir ++ m⟩
        | _ => .error .panicked
    else
      match ancestorSplit rev with
      | some (child, numStr) =>
        match parseU64digits numStr with
        | none => .error .invalidRevision
        | some num =>
          resolveF fs f child >>=
            iterE (fun p => resolveF fs f p.val >>= storeParent fs) num
      | none =>
        match fs.branchFile rev with
        | none => .error .invalidRevision
        | some contents => .ok ⟨rustTrim contents⟩

/-- `revisions::parent_of_commit`: resolve, fetch, take the parent. -/
def parentOfCommitF (fs : GitFS) (f : Nat) (rev : Str) : Except RevError Name :=
  resolveF fs f rev >>= storeParent fs

/-! ## Commit decoding (`src/commits.rs`) -/

/-- `commits::Error`. -/
inductive CommitErr where
  | invalidCommit : Str → CommitErr
  | missingField : Str → CommitErr
deriving DecidableEq

/-- `commits::CommitBuilder`: accumulated optional fields. -/
structure CommitBuilderS where
  name : Name
  tree : Option Name
  parent : Option Name
  author : Option CommitUser
  committer : Option CommitUser
  message : Option Str
deriving DecidableEq

/-- `CommitBuilder::new`. -/
def CommitBuilderS.new (name : Name) : CommitBuilderS :=
  ⟨name, none, none, none, none, none⟩

/-- `CommitBuilder::tree`. -/
def CommitBuilderS.withTree (b : CommitBuilderS) (t : Str) : CommitBuilderS :=
  { b with tree := some ⟨t⟩ }

/-- `CommitBuilder::parent`: unconditionally overwrites the stored parent. -/
def CommitBuilderS.withParent (b : CommitBuilderS) (p : Str) : CommitBuilderS :=
  { b with parent := some ⟨p⟩ }

/-- `CommitBuilder::author`. -/
def CommitBuilderS.withAuthor (b : CommitBuilderS) (n : Str) (d : CommitDateTime) :
    CommitBuilderS :=
  { b with author := some ⟨n, d⟩ }

/-- `CommitBuilder::committer`. -/
def CommitBuilderS.withCommitter (b : CommitBuilderS) (n : Str) (d : CommitDateTime) :
    CommitBuilderS :=
  { b with committer := some ⟨n, d⟩ }

/-- `CommitBuilder::build`: validates the mandatory fields in the source's
order (tree, committer, author, message) and fails with `MissingField` on
the first absent one. -/
def CommitBuilderS.build (b : CommitBuilderS) : Except CommitErr Commit :=
  match b.tree with
  | none => .error (.missingField "tree".toList)
  | some tr =>
    match b.committer with
    | none => .error (.missingField "committer".toList)
    | some co =>
      match b.author with
      | none => .error (.missingField "author".toList)
      | some au =>
        match b.message with
        | none => .error (.missingField "message".toList)
        | some msg => .ok ⟨b.name, tr, b.parent, au, co, msg⟩

/-- Supported range of `chrono::NaiveDateTime` (years -262144..=262143):
`NaiveDateTime::from_timestamp_opt(t, 0)` is `Some` exactly for epoch
seconds in `[chronoMinTimestamp, chronoMaxTimestamp]`. -/
def chronoMaxTimestamp : Int := 8210298412799

/-- Lower end of the `chrono::NaiveDateTime` range (see
`chronoMaxTimestamp`). -/
def chronoMinTimestamp : Int := -8334632851200

/-- `commits::parse_commit_date`.  `DATETIME_REGEX` is
`^(?P<timestamp>[0-9][0-9]*) (?P<tz_hours>[+-][0-9]{2})(?P<tz_minutes>[0-9]{2})`
(note: not anchored at the end, so trailing input is ignored).  The
timestamp capture is parsed as `i64` (fails at `2^63`), fed through
`NaiveDateTime::from_timestamp_opt` (fails outside chrono's range), and the
offset is `FixedOffset::east_opt(tz_hours * 3600 + tz_minutes * 60)` where
`tz_hours` carries the sign and `tz_minutes` is always non-negative;
`east_opt` fails unless the result lies strictly between ±86400. -/
def parseCommitDate (l : Str) : Except CommitErr CommitDateTime :=
  let t := l.takeWhile isDigitChar
  match l.drop t.length with
  | ' ' :: sg :: h1 :: h2 :: m1 :: m2 :: _ =>
    if t ≠ [] ∧ (sg = '+' ∨ sg = '-') ∧ isDigitChar h1 ∧ isDigitChar h2 ∧
        isDigitChar m1 ∧ isDigitChar m2 then
      if digitsVal t < 2 ^ 63 then
        if chronoMinTimestamp ≤ (digitsVal t : Int) ∧
            (digitsVal t : Int) ≤ chronoMaxTimestamp then
          let tzHours : Int :=
            (if sg = '-' then -1 else 1) * (10 * digitVal h1 + digitVal h2)
          let tzMinutes : Int := 10 * digitVal m1 + digitVal m2
          let off := tzHours * 3600 + tzMinutes * 60
          if -86400 < off ∧ off < 86400 then .ok ⟨(digitsVal t : Int), off⟩
          else .error (.invalidCommit ("invalid timezone".toList))
        else .error (.invalidCommit ("invalid timestamp".toList))
      else .error (.invalidCommit ("number too large".toList))
    else .error (.invalidCommit ("invalid date".toList))
  | _ => .error (.invalidCommit ("invalid date".toList))

/-- `TREE_REGEX`: `^tree (?P<rev>[0-9a-f]{40})$`. -/
def treeCapture (l : Str) : Option Str :=
  let h := l.drop 5
  if l.take 5 = "tree ".toList ∧ h.length = 40 ∧ h.all isHexChar then some h
  else none

/-- `PARENT_REGEX`: `^parent (?P<rev>[0-9a-f]{40})$`. -/
def parentCapture (l : Str) : Option Str :=
  let h := l.drop 7
  if l.take 7 = "parent ".toList ∧ h.length = 40 ∧ h.all isHexChar then some h
  else none

/-- The shared shape of `AUTHOR_REGEX` / `COMMITTER_REGEX` after their
keyword: `(?P<name>.+) (?P<date>\d+ [+-]\d{4})$`, with the crate's `\d`
being the Unicode class `Nd` (a date written with non-ASCII decimal digits
matches here and then fails inside `parse_commit_date`, whose own regex is
the explicit ASCII `[0-9]`, as in the source).  Matching from the right:
the line must end in a sign plus four digits, preceded by a space, preceded
by the (necessarily maximal) nonempty digit run of the timestamp, preceded
by a space; the greedy `name` is everything before that space (the line
holds no `\n`, so `.`'s newline exclusion is vacuous here).  Returns
`(name, date)` captures. -/
def userDateCapture (r : Str) : Option (Str × Str) :=
  match r.reverse with
  | d1 :: d2 :: d3 :: d4 :: sg :: ' ' :: rem =>
    if isNdDigit d1 ∧ isNdDigit d2 ∧ isNdDigit d3 ∧ isNdDigit d4 ∧
        (sg = '+' ∨ sg = '-') then
      let t := rem.takeWhile isNdDigit
      match rem.drop t.length with
      | ' ' :: nameRev =>
        if t ≠ [] ∧ nameRev ≠ [] then
          some (nameRev.reverse, t.reverse ++ ' ' :: sg :: [d4, d3, d2, d1])
        else none
      | _ => none
    else none
  | _ => none

/-- `AUTHOR_REGEX`: `^author (?P<name>.+) (?P<date>\d+ [+-]\d{4})$`. -/
def authorCapture (l : Str) : Option (Str × Str) :=
  if l.take 7 = "author ".toList then userDateCapture (l.drop 7) else none

/-- `COMMITTER_REGEX`: `^committer (?P<name>.+) (?P<date>\d+ [+-]\d{4})$`. -/
def committerCapture (l : Str) : Option (Str × Str) :=
  if l.take 10 = "committer ".toList then userDateCapture (l.drop 10) else none

/-- One iteration body of the header loop of `commits::parse_commit`,
applied to the line just produced by `read_line` (terminating `\n`
included when one was found): drop the line's final character
(`line.pop()`), report a (whitespace-)blank line as `ok none` (the loop's
`break`), otherwise try the four header regexes in source order and return
the updated builder, failing on an unrecognized line. -/
def stepLine (b : CommitBuilderS) (line : Str) :
    Except CommitErr (Option CommitBuilderS) :=
  let popped := line.dropLast
  if rustTrim popped = [] then .ok none
  else
    match treeCapture popped with
    | some t => .ok (some (b.withTree t))
    | none =>
      match parentCapture popped with
      | some p => .ok (some (b.withParent p))
      | none =>
        match authorCapture popped with
        | some (n, d) =>
          match parseCommitDate d with
          | .ok date => .ok (some (b.withAuthor n date))
          | .error e => .error e
        | none =>
          match committerCapture popped with
          | some (n, d) =>
            match parseCommitDate d with
            | .ok date => .ok (some (b.withCommitter n date))
            | .error e => .error e
          | none =>
            .error (.invalidCommit ("Unexpected line in commit object".toList))

/-- The header loop of `commits::parse_commit`, with `read_line` fused in:
`acc` is the part of the current line consumed so far.  Hitting `\n` ends a
line (which `read_line` returns with its `\n`); end of input ends the final
line without a `\n`, after which the loop's next `read_line` returns an
empty line and breaks with nothing left to read.  Returns the builder at
the blank-line boundary together with the unread remainder. -/
def headerLoopAux (b : CommitBuilderS) (acc : Str) :
    Str → Except CommitErr (CommitBuilderS × Str)
  | [] =>
    match stepLine b acc with
    | .error e => .error e
    | .ok none => .ok (b, [])
    | .ok (some b1) => .ok (b1, [])
  | c :: cs =>
    if c = '\n' then
      match stepLine b (acc ++ ['\n']) with
      | .error e => .error e
      | .ok none => .ok (b, cs)
      | .ok (some b1) => headerLoopAux b1 [] cs
    else headerLoopAux b (acc ++ [c]) cs

/-- The header loop of `commits::parse_commit`, from the start of the
payload. -/
def headerLoop (b : CommitBuilderS) (payload : Str) :
    Except CommitErr (CommitBuilderS × Str) :=
  headerLoopAux b [] payload

/-- `commits::parse_commit`: run the header loop from a fresh builder, read
the remainder as the message, `pop` its final character, trim, and build. -/
def parseCommit (name : Name) (payload : Str) : Except CommitErr Commit := do
  let (b, rest) ← headerLoop (CommitBuilderS.new name) payload
  let b := { b with message := some (rustTrim rest.dropLast) }
  b.build

/-! ## Loose-object header decoding (`src/objects.rs`)

The decompressed stream is a byte sequence, modelled as `List Nat`. -/

/-- `objects::Type`. -/
inductive ObjType where
  | blob : ObjType
  | tree : ObjType
  | commit : ObjType
deriving DecidableEq

/-- `objects::Header`. -/
structure ObjHeader where
  objectType : ObjType
  contentLength : Nat
deriving DecidableEq

/-- `objects::Error` (the pure model has no I/O errors; `InvalidFile`
covers unknown types, bad sizes and UTF-8 failures, as in the source). -/
inductive ObjErr where
  | invalidFile : Str → ObjErr
deriving DecidableEq

/-- The byte values of an ASCII string. -/
def asciiBytes (s : String) : List Nat :=
  s.toList.map Char.toNat

/-- `objects::read_until` (also the body of `read_size`'s `read_until`):
`BufRead::read_until` consumes bytes up to and including the delimiter, or
to end of stream, and the subsequent `buffer.pop()` unconditionally drops
the final byte read — the delimiter when one was found, otherwise the last
byte of the stream.  Returns the token and the unconsumed remainder. -/
def readUntilB (delim : Nat) (l : List Nat) : List Nat × List Nat :=
  match l.findIdx? (fun b => b = delim) with
  | some i => (l.take i, l.drop (i + 1))
  | none => (l.dropLast, [])

/-- `objects::read_type`: read to the space delimiter and match the type
token.  `str::from_utf8` failure and an unknown type string both produce
`Error::InvalidFile`, so success requires the token to be exactly the ASCII
bytes of `blob`, `tree` or `commit`. -/
def readTypeB (l : List Nat) : Except ObjErr (ObjType × List Nat) :=
  let p := readUntilB 0x20 l
  if p.1 = asciiBytes "blob" then .ok (.blob, p.2)
  else if p.1 = asciiBytes "tree" then .ok (.tree, p.2)
  else if p.1 = asciiBytes "commit" then .ok (.commit, p.2)
  else .error (.invalidFile ("invalid type".toList))

/-- Byte-level `str::parse::<u64>`: an optional leading `+`, then at least
one ASCII digit, value below `2^64`; `from_utf8` failure on the size buffer
is subsumed (a non-UTF-8 byte is not a digit). -/
def parseU64bytes (bs : List Nat) : Option Nat :=
  let ds := match bs with
    | 43 :: t => t
    | _ => bs
  if ds ≠ [] ∧ ds.all (fun b => 48 ≤ b ∧ b ≤ 57) ∧
      ds.foldl (fun a b => 10 * a + (b - 48)) 0 < 2 ^ 64 then
    some (ds.foldl (fun a b => 10 * a + (b - 48)) 0)
  else none

/-- `objects::read_size`: read to the NUL delimiter and parse the token as
an unsigned 64-bit decimal. -/
def readSizeB (l : List Nat) : Except ObjErr (Nat × List Nat) :=
  let p := readUntilB 0x0 l
  match parseU64bytes p.1 with
  | some n => .ok (n, p.2)
  | none => .error (.invalidFile ("invalid digit".toList))

/-- `objects::read_header_from_reader` (the pure core of `read_header`):
type token, then size token; the remainder is the payload position. -/
def readHeaderB (l : List Nat) : Except ObjErr (ObjHeader × List Nat) := do
  let (t, l1) ← readTypeB l
  let (s, l2) ← readSizeB l1
  .ok (⟨t, s⟩, l2)

/-! ## Index decoding (`src/index.rs`) -/

/-- `index::Error`. -/
inductive IndexErr where
  | invalidIndex : Str → IndexErr
  | invalidEntry : Str → IndexErr
deriving DecidableEq

/-- The filesystem dependence of `index::Entry::read`:
`fs::canonicalize` of the path-name string read from the entry (`none`
models a canonicalization failure, e.g. a path that does not exist). -/
structure IdxFS where
  canonicalize : List Nat → Option (List Nat)

/-- An index entry as exposed by the core: the hex-formatted SHA-1 and the
canonicalized path (kept as the bytes of the path). -/
structure EntryS where
  sha1 : Str
  path : List Nat
deriving DecidableEq

/-- `index::Index`. -/
structure IndexS where
  version : Nat
  entries : List EntryS
deriving DecidableEq

/-- `Read::read_exact` into an `n`-byte buffer: fails on a short read. -/
def takeExact (n : Nat) (l : List Nat) : Option (List Nat × List Nat) :=
  if n ≤ l.length then some (l.take n, l.drop n) else none

/-- `byteorder::ReadBytesExt::read_u32::<NetworkEndian>`. -/
def readU32 : List Nat → Option (Nat × List Nat)
  | b0 :: b1 :: b2 :: b3 :: rest => some (((b0 * 256 + b1) * 256 + b2) * 256 + b3, rest)
  | _ => none

/-- The two lower-case hex characters of a byte (`format!("{:02x}", n)`). -/
def hexDigitChar (n : Nat) : Char :=
  if n < 10 then Char.ofNat (48 + n) else Char.ofNat (87 + n)

/-- `format!("{:02x}", b)` for one byte. -/
def byteHex (b : Nat) : Str :=
  [hexDigitChar (b / 16 % 16), hexDigitChar (b % 16)]

/-- Validity predicate of `String::from_utf8` on a byte sequence (strict
UTF-8: no overlong forms, no surrogates, max U+10FFFF). -/
def isValidUtf8 : List Nat → Bool
  | [] => true
  | b :: bs =>
    if b < 0x80 then isValidUtf8 bs
    else match bs with
      | b1 :: bs1 =>
        if 0xC2 ≤ b ∧ b ≤ 0xDF then
          (0x80 ≤ b1 && b1 ≤ 0xBF) && isValidUtf8 bs1
        else match bs1 with
          | b2 :: bs2 =>
            if b = 0xE0 then
              (0xA0 ≤ b1 && b1 ≤ 0xBF) && (0x80 ≤ b2 && b2 ≤ 0xBF) && isValidUtf8 bs2
            else if (0xE1 ≤ b ∧ b ≤ 0xEC) ∨ b = 0xEE ∨ b = 0xEF then
              (0x80 ≤ b1 && b1 ≤ 0xBF) && (0x80 ≤ b2 && b2 ≤ 0xBF) && isValidUtf8 bs2
            else if b = 0xED then
              (0x80 ≤ b1 && b1 ≤ 0x9F) && (0x80 ≤ b2 && b2 ≤ 0xBF) && isValidUtf8 bs2
            else match bs2 with
              | b3 :: bs3 =>
                if b = 0xF0 then
                  (0x90 ≤ b1 && b1 ≤ 0xBF) && (0x80 ≤ b2 && b2 ≤ 0xBF) &&
                    (0x80 ≤ b3 && b3 ≤ 0xBF) && isValidUtf8 bs3
                else if 0xF1 ≤ b ∧ b ≤ 0xF3 then
                  (0x80 ≤ b1 && b1 ≤ 0xBF) && (0x80 ≤ b2 && b2 ≤ 0xBF) &&
                    (0x80 ≤ b3 && b3 ≤ 0xBF) && isValidUtf8 bs3
                else if b = 0xF4 then
                  (0x80 ≤ b1 && b1 ≤ 0x8F) && (0x80 ≤ b2 && b2 ≤ 0xBF) &&
                    (0x80 ≤ b3 && b3 ≤ 0xBF) && isValidUtf8 bs3
                else false
              | [] => false
          | [] => false
      | [] => false

/-- The tail of `index::Entry::read` after the SHA-1 has been read and
hex-formatted: 2 flag bytes, 2 extended-flag bytes iff `version >= 3`, the
path name up to and including its NUL (`read_until`'s count includes the
delimiter; the token drops it, or the final byte at end of stream), a UTF-8
validity check, NUL padding to an 8-byte entry multiple iff `version < 4`
(read, not checked), and path canonicalization. -/
def entryReadAfterSha (env : IdxFS) (version : Nat) (sha1 : Str) (l2 : List Nat) :
    Except IndexErr (EntryS × List Nat) := do
  let (_, l3) ← (takeExact 2 l2).elim
    (.error (.invalidEntry ("unable to read entry: flags".toList))) .ok
  let entryLength3 := 40 + 20 + 2
  let (entryLength4, l4) ←
    if 3 ≤ version then do
      let (_, l4) ← (takeExact 2 l3).elim
        (.error (.invalidEntry ("unable to read entry: additional flags".toList))) .ok
      pure (entryLength3 + 2, l4)
    else pure (entryLength3, l3)
  let (pathToken, pathCount, l5) :=
    match l4.findIdx? (fun b => b = 0) with
    | some i => (l4.take i, i + 1, l4.drop (i + 1))
    | none => (l4.dropLast, l4.length, ([] : List Nat))
  if isValidUtf8 pathToken then
    let entryLength := entryLength4 + pathCount
    let padding := if 4 ≤ version then 0 else (8 - entryLength % 8) % 8
    let (_, l6) ← (takeExact padding l5).elim
      (.error (.invalidEntry ("unable to read entry: path name padding".toList))) .ok
    match env.canonicalize pathToken with
    | some canon => .ok (⟨sha1, canon⟩, l6)
    | none => .error (.invalidEntry ("unable to parse path name".toList))
  else .error (.invalidEntry ("unable to read entry: path name from UTF8".toList))

/-- `index::Entry::read`: 40 bytes of stat metadata (read and discarded),
20 SHA-1 bytes formatted as 40 lower-hex characters, then the
version-dependent tail (`entryReadAfterSha`). -/
def entryRead (env : IdxFS) (version : Nat) (l : List Nat) :
    Except IndexErr (EntryS × List Nat) := do
  let (_, l1) ← (takeExact 40 l).elim
    (.error (.invalidEntry ("unable to read entry: prefix".toList))) .ok
  let (sha1bytes, l2) ← (takeExact 20 l1).elim
    (.error (.invalidEntry ("unable to read entry: sha1".toList))) .ok
  entryReadAfterSha env version (sha1bytes.flatMap byteHex) l2

/-- The `for _ in 0..num_entries` loop of `index::Index::read`. -/
def entriesLoop (env : IdxFS) (version : Nat) :
    Nat → List Nat → Except IndexErr (List EntryS × List Nat)
  | 0, l => .ok ([], l)
  | n + 1, l => do
    let (e, l1) ← entryRead env version l
    let (es, l2) ← entriesLoop env version n l1
    .ok (e :: es, l2)

/-- `index::Index::read` on the bytes of `.git/index`: `DIRC` magic,
big-endian `version` and entry count, then the declared number of entries;
extensions and the trailing SHA-1 are deliberately ignored. -/
def indexRead (env : IdxFS) (l : List Nat) : Except IndexErr IndexS := do
  let (magic, l1) ← (takeExact 4 l).elim
    (.error (.invalidIndex ("unable to read header".toList))) .ok
  if magic = [0x44, 0x49, 0x52, 0x43] then do
    let (version, l2) ← (readU32 l1).elim
      (.error (.invalidIndex ("failed to fill whole buffer".toList))) .ok
    let (numEntries, l3) ← (readU32 l2).elim
      (.error (.invalidIndex ("failed to fill whole buffer".toList))) .ok
    let (entries, _) ← entriesLoop env version numEntries l3
    .ok ⟨version, entries⟩
  else .error (.invalidIndex ("invalid header".toList))

/-! ## Supporting lemmas -/

/-- A filesystem with nothing on it: no `.git/HEAD`, no refs, no objects. -/
def emptyGitFS : GitFS :=
  ⟨none, fun _ => none, fun _ => none, fun _ => none, fun _ => none⟩

/-- A sample full SHA-1 (drawn from the repository's test suite). -/
def sampleSha : Str := "4ddb0025ef5914b51fb835495f5259a6d962df21".toList

/-- A filesystem carrying branches whose *names* are `~0` and `a\nb~0`:
legal on a real filesystem, and exactly what `resolve` consults for the
strings `"" + "~0"` and `"a\nb" + "~0"` (the `ANCESTOR_REGEX` child group
`.+` needs a nonempty child and `.` never matches `\n`, so both composed
strings fall through to the branch-name alternative). -/
def c2FS : GitFS :=
  { headFile := none
    gitFile := fun _ => none
    branchFile := fun l =>
      if l = "~0".toList then some "abc".toList
      else if l = "a\nb~0".toList then some "def".toList
      else none
    objectsDir := fun _ => none
    readObject := fun _ => none }

/-- A filesystem with two branch files: one holding a well-formed hash with
trailing whitespace, one holding junk that is nowhere near 40-hex. -/
def refsFS : GitFS :=
  { headFile := none
    gitFile := fun _ => none
    branchFile := fun l =>
      if l = "introduce-tests".toList then
        some "41cf28e8cac50f5cfeda40cfbfdd049763541c5a\n".toList
      else if l = "b".toList then some "xyz".toList
      else none
    objectsDir := fun _ => none
    readObject := fun _ => none }

/-- The offset the code computes: the *signed* two-digit hour times 3600
plus the always-non-negative two-digit minute times 60
(`tz_hours * 3600 + tz_minutes * 60` with `tz_hours` parsed from
`[+-][0-9]{2}`). -/
def codeOffset (sg h1 h2 m1 m2 : Char) : Int :=
  (if sg = '-' then -1 else 1) * (10 * digitVal h1 + digitVal h2) * 3600 +
    (10 * digitVal m1 + digitVal m2) * 60

/-- Modelled from the spec: the claimed offset
`(sign) · (HH·3600 + MM·60)` where sign is +1 for `+` and −1 for `-`;
stated only to be compared against `codeOffset`. -/
def specOffset (sg h1 h2 m1 m2 : Char) : Int :=
  (if sg = '-' then -1 else 1) *
    ((10 * digitVal h1 + digitVal h2) * 3600 + (10 * digitVal m1 + digitVal m2) * 60)

/-- A 40-hex identifier of `a`s, and one of `b`s. -/
def hashA : Str := "aaaaaaaaaaaaaaaaaaaaaaaaaaaaaaaaaaaaaaaa".toList

/-- The second sample identifier. -/
def hashB : Str := "bbbbbbbbbbbbbbbbbbbbbbbbbbbbbbbbbbbbbbbb".toList

/-- A commit payload containing two `parent` lines, `hashA` first and
`hashB` second. -/
def c4payload : Str :=
  ("tree 4ddb0025ef5914b51fb835495f5259a6d962df21\n" ++
   "parent aaaaaaaaaaaaaaaaaaaaaaaaaaaaaaaaaaaaaaaa\n" ++
   "parent bbbbbbbbbbbbbbbbbbbbbbbbbbbbbbbbbbbbbbbb\n" ++
   "author a 1465028521 -0700\n" ++
   "committer c 1465028521 -0700\n" ++
   "\n" ++
   "msg\n").toList

/-- The commit record that `c4payload` parses to. -/
def c4commit : Commit :=
  ⟨⟨"x".toList⟩, ⟨sampleSha⟩, some ⟨hashB⟩,
    ⟨"a".toList, ⟨1465028521, -25200⟩⟩, ⟨"c".toList, ⟨1465028521, -25200⟩⟩,
    "msg".toList⟩

/-- A payload whose header region ends (blank line) with `committer` and
`author` both absent; `build`'s validation order reports `committer`. -/
def c7payload : Str :=
  ("tree 4ddb0025ef5914b51fb835495f5259a6d962df21\n" ++
   "author a 0 +0000\n" ++
   "\n").toList

/-- The builder state of `c7payload` at the blank-line boundary. -/
def c7builder : CommitBuilderS :=
  ⟨⟨"x".toList⟩, some ⟨sampleSha⟩, none, some ⟨"a".toList, ⟨0, 0⟩⟩, none, none⟩

/-- A payload whose message body is a single newline. -/
def c9nlPayload : Str :=
  ("tree 4ddb0025ef5914b51fb835495f5259a6d962df21\n" ++
   "author a 0 +0000\n" ++
   "committer c 0 +0000\n" ++
   "\n" ++
   "\n").toList

/-- The builder state of `c9nlPayload` at the blank-line boundary. -/
def c9builder : CommitBuilderS :=
  ⟨⟨"x".toList⟩, some ⟨sampleSha⟩, none, some ⟨"a".toList, ⟨0, 0⟩⟩,
    some ⟨"c".toList, ⟨0, 0⟩⟩, none⟩

/-- The commit record that `c9nlPayload` parses to. -/
def c9commit : Commit :=
  ⟨⟨"x".toList⟩, ⟨sampleSha⟩, none, ⟨"a".toList, ⟨0, 0⟩⟩, ⟨"c".toList, ⟨0, 0⟩⟩, []⟩

/-- Modelled from the spec: "the remainder, with a single trailing newline
stripped" — strips one final newline if present, and nothing otherwise.
Stated only to be compared with the code's unconditional `pop`. -/
def specStripTrailingNewline (l : Str) : Str :=
  if l.getLast? = some '\n' then l.dropLast else l

/-- A payload whose message body is `abc` with no trailing newline. -/
def c9payload : Str :=
  ("tree 4ddb0025ef5914b51fb835495f5259a6d962df21\n" ++
   "author a 0 +0000\n" ++
   "committer c 0 +0000\n" ++
   "\n" ++
   "abc").toList

/-- An identity canonicalizer: every path exists and is already absolute. -/
def idIdxFS : IdxFS := ⟨fun bs => some bs⟩

/-- An entry whose 20 SHA-1 bytes are all zero and whose path is `a`. -/
def pathAEntry : EntryS := ⟨(List.replicate 20 0).flatMap byteHex, [97]⟩

/-- One on-disk entry without extended flags (40 metadata bytes, 20 SHA-1
bytes, 2 flag bytes, path `a` plus NUL; 64 bytes total, already 8-aligned
so no padding). -/
def entryBytesNoExt : List Nat :=
  List.replicate 40 0 ++ List.replicate 20 0 ++ [0, 0] ++ [97, 0]

/-- The same entry with the 2 extended-flag bytes of `version >= 3`. -/
def entryBytesExt : List Nat :=
  List.replicate 40 0 ++ List.replicate 20 0 ++ [0, 0] ++ [0, 0] ++ [97, 0]

/-- A version-2 index file with one entry. -/
def version2Index : List Nat :=
  [0x44, 0x49, 0x52, 0x43, 0, 0, 0, 2, 0, 0, 0, 1] ++ entryBytesNoExt

/-- A version-0 index file with one entry (version 0 is outside {2,3,4}). -/
def version0Index : List Nat :=
  [0x44, 0x49, 0x52, 0x43, 0, 0, 0, 0, 0, 0, 0, 1] ++ entryBytesNoExt

/-- A version-5 index file with one entry (extended flags, no padding). -/
def version5Index : List Nat :=
  [0x44, 0x49, 0x52, 0x43, 0, 0, 0, 5, 0, 0, 0, 1] ++ entryBytesExt

theorem digitVal_ofNat (m : Nat) (h : m < 10) :
    digitVal (Char.ofNat (48 + m)) = m := by
  interval_cases m <;> decide

theorem isDigitChar_ofNat (m : Nat) (h : m < 10) :
    isDigitChar (Char.ofNat (48 + m)) = true := by
  interval_cases m <;> decide

theorem toDecimal_ne_nil (n : Nat) : toDecimal n ≠ [] := by
  rw [toDecimal]
  split <;> simp

theorem toDecimal_all_digits (n : Nat) : (toDecimal n).all isDigitChar = true := by
  induction n using Nat.strong_induction_on with
  | _ n ih =>
    rw [toDecimal]
    split
    · next h => simp [isDigitChar_ofNat n h]
    · next h =>
      have ihm := ih (n / 10) (Nat.div_lt_self (by omega) (by omega))
      simp only [List.all_append, ihm, Bool.true_and, List.all_cons, List.all_nil]
      simp [isDigitChar_ofNat (n % 10) (Nat.mod_lt _ (by omega))]

theorem digitsVal_toDecimal (n : Nat) : digitsVal (toDecimal n) = n := by
  induction n using Nat.strong_induction_on with
  | _ n ih =>
    rw [toDecimal]
    split
    · next h =>
      simp [digitsVal, digitVal_ofNat n h]
    · next h =>
      have ihm := ih (n / 10) (Nat.div_lt_self (by omega) (by omega))
      simp only [digitsVal, List.foldl_append, List.foldl_cons, List.foldl_nil]
      have : List.foldl (fun a c => 10 * a + digitVal c) 0 (toDecimal (n / 10)) = n / 10 := ihm
      rw [this, digitVal_ofNat (n % 10) (Nat.mod_lt _ (by omega))]
      omega

theorem takeWhile_append_all {α : Type} (p : α → Bool) (l r : List α) (x : α)
    (h : l.all p = true) (hx : p x = false) :
    (l ++ x :: r).takeWhile p = l ∧ (l ++ x :: r).dropWhile p = x :: r := by
  induction l with
  | nil => simp [List.takeWhile, List.dropWhile, hx]
  | cons c cs ih =>
    simp only [List.all_cons, Bool.and_eq_true] at h
    simp [List.takeWhile, List.dropWhile, h.1, ih h.2]

theorem isNdDigit_of_isDigitChar (c : Char) (h : isDigitChar c = true) :
    isNdDigit c = true := by
  simp only [isDigitChar, Bool.and_eq_true, decide_eq_true_eq] at h
  unfold isNdDigit
  refine List.any_eq_true.mpr ⟨(48, 57), by decide, ?_⟩
  simpa using h

theorem ancestorSplit_append (s D : Str) (hs : s ≠ [])
    (hnl : s.any (fun c => c = '\n') = false) (hD : D ≠ [])
    (hDd : D.all isDigitChar = true) :
    ancestorSplit (s ++ '~' :: D) = some (s, D) := by
  have hrev : (s ++ '~' :: D).reverse = D.reverse ++ '~' :: s.reverse := by
    simp
  have hDnd : D.all isNdDigit = true := by
    refine List.all_eq_true.mpr fun c hc => ?_
    exact isNdDigit_of_isDigitChar c (List.all_eq_true.mp hDd c hc)
  have hall : D.reverse.all isNdDigit = true := by simpa using hDnd
  have htw := takeWhile_append_all isNdDigit D.reverse s.reverse '~' hall (by decide)
  have hnl2 : s.reverse.any (fun c => c = '\n') = false := by
    rw [List.any_reverse]
    exact hnl
  unfold ancestorSplit
  rw [hrev, htw.1, htw.2]
  simp [hD, hs, hnl2]

theorem mem_of_all_eq_true {α : Type} {p : α → Bool} {l : List α} {x : α}
    (h : l.all p = true) (hx : x ∈ l) : p x = true :=
  List.all_eq_true.mp h x hx

/-- A string whose characters are all hex digits contains no `~`, ends in
no `^`, and so on; packaged as the branch-dispatch facts about
`resolveF`'s guards for a string of the composed form `s ++ "~" ++ digits`. -/
theorem composed_guards (s D : Str) (hD : D ≠ []) (hDd : D.all isDigitChar = true) :
    ¬(s ++ '~' :: D = "HEAD".toList) ∧
    endsWithCaret (s ++ '~' :: D) = false ∧
    isFullSha (s ++ '~' :: D) = false ∧
    isPartialSha (s ++ '~' :: D) = false := by
  have hmem : '~' ∈ s ++ '~' :: D := by simp
  have hnotHex : ∀ l : Str, '~' ∈ l → l.all isHexChar = false := by
    intro l hl
    cases hhex : l.all isHexChar with
    | false => rfl
    | true => exact absurd (mem_of_all_eq_true hhex hl) (by decide)
  refine ⟨?_, ?_, ?_, ?_⟩
  · intro he
    rw [he] at hmem
    revert hmem
    decide
  · have hlast : (s ++ '~' :: D).getLast? = D.getLast? := by
      rw [List.getLast?_append_of_ne_nil s (by simp : ('~' :: D) ≠ [])]
      cases D with
      | nil => exact absurd rfl hD
      | cons d ds => simp [List.getLast?_cons_cons]
    cases hgl : D.getLast? with
    | none => simp [endsWithCaret, hlast, hgl]
    | some c =>
      have hc : c ∈ D := by
        obtain ⟨hne, he⟩ := List.mem_getLast?_eq_getLast (l := D) (x := c)
          (by simp [Option.mem_def, hgl])
        rw [he]
        exact List.getLast_mem hne
      have : isDigitChar c = true := mem_of_all_eq_true hDd hc
      have hne : c ≠ '^' := by
        intro he
        rw [he] at this
        exact absurd this (by decide)
      simp [endsWithCaret, hlast, hgl, hne]
  · simp [isFullSha, hnotHex _ hmem]
  · simp [isPartialSha, hnotHex _ hmem]

theorem endsWithCaret_of_all_hex (l : Str) (h : l.all isHexChar = true) :
    endsWithCaret l = false := by
  cases hgl : l.getLast? with
  | none => simp [endsWithCaret, hgl]
  | some c =>
    have hc : c ∈ l := by
      obtain ⟨hne, he⟩ := List.mem_getLast?_eq_getLast (l := l) (x := c)
        (by simp [Option.mem_def, hgl])
      rw [he]
      exact List.getLast_mem hne
    have hhex := mem_of_all_eq_true h hc
    have hne : c ≠ '^' := by
      intro he
      rw [he] at hhex
      exact absurd hhex (by decide)
    simp [endsWithCaret, hgl, hne]

/-! ## C1: full 40-hex revisions resolve to themselves, for any filesystem -/

/-- C1.  For every string `s` matching `^[0-9a-f]{40}$`, `resolve(s)`
succeeds and returns the `Identifier` carrying exactly `s`.  The statement
holds for every filesystem environment `fs` and every fuel, which is the
extensional rendering of "the computation performs no filesystem access":
the result does not depend on any file contents, directory listings or
object reads. -/
theorem c1_resolve_full_sha (fs : GitFS) (f : Nat) (s : Str)
    (h : isFullSha s = true) :
    resolveF fs (f + 1) s = .ok ⟨s⟩ := by
  have h2 : s.all isHexChar = true := by
    simp only [isFullSha, Bool.and_eq_true] at h
    exact h.2
  have hlen : s.length = 40 := by
    simp only [isFullSha, Bool.and_eq_true, decide_eq_true_eq] at h
    exact h.1
  have hne : ¬(s = "HEAD".toList) := by
    intro he
    rw [he] at hlen
    revert hlen
    decide
  have hcaret := endsWithCaret_of_all_hex s h2
  rw [resolveF]
  rw [if_neg hne, if_neg (by simp [hcaret]), if_pos h]

/-- Witness for C1 at a concrete hash, on the empty filesystem. -/
theorem c1_resolve_full_sha_witness :
    isFullSha sampleSha = true ∧
      resolveF emptyGitFS 1 sampleSha = .ok ⟨sampleSha⟩ :=
  ⟨by decide, c1_resolve_full_sha emptyGitFS 0 sampleSha (by decide)⟩

/-! ## C2: `~N` ancestor resolution -/

theorem parseU64digits_toDecimal (N : Nat) (h : N < 2 ^ 64) :
    parseU64digits (toDecimal N) = some N := by
  unfold parseU64digits
  rw [if_pos ⟨toDecimal_ne_nil N, toDecimal_all_digits N,
    by rw [digitsVal_toDecimal]; exact h⟩, digitsVal_toDecimal]

/-- C2 (amended).  For every *nonempty, newline-free* revision string `s`
and every `N < 2^64`, `resolve(s ++ "~" ++ decimal(N))` equals applying
the single-step first-parent operation (`parent_of_commit`) `N` times to
`resolve(s)`; each failing step — object unreadable, not a commit, or a
commit without a parent — yields `InvalidRevision`, which the right-hand
side's `parentOfCommitF`/`iterE` composition makes explicit.  The
restrictions on `s` come from `ANCESTOR_REGEX`'s child group `.+`: it
needs at least one character and `.` never matches `\n`, so for empty or
newline-carrying `s` the composed string falls through to the branch-name
alternative instead (see the counterexample).  The fuel `f` is the
recursion budget of the totalized evaluator; both sides use the budget
exactly as the source's recursion does. -/
theorem c2_resolve_ancestor (fs : GitFS) (f : Nat) (s : Str) (N : Nat)
    (hs : s ≠ []) (hnl : s.any (fun c => c = '\n') = false) (hN : N < 2 ^ 64) :
    resolveF fs (f + 1) (s ++ '~' :: toDecimal N) =
      resolveF fs f s >>= iterE (fun p => parentOfCommitF fs f p.val) N := by
  obtain ⟨hne, hcaret, hfull, hpart⟩ :=
    composed_guards s (toDecimal N) (toDecimal_ne_nil N) (toDecimal_all_digits N)
  rw [resolveF, if_neg hne, if_neg (by simp [hcaret]), if_neg (by simp [hfull]),
    if_neg (by simp [hpart]),
    ancestorSplit_append s (toDecimal N) hs hnl (toDecimal_ne_nil N)
      (toDecimal_all_digits N)]
  dsimp only
  rw [parseU64digits_toDecimal N hN]
  rfl

/-- Witness for C2 (amended) at `s = "d7698dd"`, `N = 3`, on the empty
filesystem. -/
theorem c2_resolve_ancestor_witness :
    ("d7698dd".toList ≠ ([] : Str)) ∧ 3 < 2 ^ 64 ∧
      resolveF emptyGitFS 2 ("d7698dd".toList ++ '~' :: toDecimal 3) =
        resolveF emptyGitFS 1 "d7698dd".toList >>=
          iterE (fun p => parentOfCommitF emptyGitFS 1 p.val) 3 :=
  ⟨by decide, by decide,
    c2_resolve_ancestor emptyGitFS 1 "d7698dd".toList 3 (by decide) (by decide)
      (by decide)⟩

/-- C2 counterexample: the claim as stated quantifies over *every* revision
string `s`.  At `s = ""` and `N = 0` the composed string `"~0"` is handled
as a branch name (the `~` alternative's `.+` cannot match an empty child),
and at `s = "a\nb"` and `N = 0` the composed string is likewise a branch
name (`.` never matches `\n`, so `ANCESTOR_REGEX` cannot match); in both
cases `resolve` returns that branch's contents while
`iterate(parent, 0, resolve(s))` fails — the claimed equation is false. -/
theorem c2_resolve_ancestor_counterexample :
    (resolveF c2FS 2 (([] : Str) ++ '~' :: toDecimal 0) = .ok ⟨"abc".toList⟩ ∧
      (resolveF c2FS 1 ([] : Str) >>=
        iterE (fun p => parentOfCommitF c2FS 1 p.val) 0) = .error .invalidRevision) ∧
      (resolveF c2FS 2 ("a\nb".toList ++ '~' :: toDecimal 0) = .ok ⟨"def".toList⟩ ∧
        (resolveF c2FS 1 "a\nb".toList >>=
          iterE (fun p => parentOfCommitF c2FS 1 p.val) 0) = .error .invalidRevision) ∧
      (Except.ok ⟨"abc".toList⟩ : Except RevError Name) ≠ .error .invalidRevision ∧
      (Except.ok ⟨"def".toList⟩ : Except RevError Name) ≠ .error .invalidRevision := by
  have h0 : toDecimal 0 = ['0'] := by simp [toDecimal]
  rw [h0]
  exact ⟨⟨by decide, by decide⟩, ⟨by decide, by decide⟩, by decide, by decide⟩

/-! ## C5: the branch-name fallback -/

/-- C5 (amended).  For every revision string matching none of the earlier
grammar alternatives — not `HEAD`, no `^` suffix, not a full or abbreviated
hash, and not matched by `ANCESTOR_REGEX` under the crate's semantics
(`ancestorSplit`, whose hypothesis set therefore includes e.g. revisions
with a `\n` before the `~N`, and excludes revisions whose `~`-suffix is
made of non-ASCII `Nd` digits, since those match the regex and error inside
the ancestor branch) — `resolve` reads `.git/refs/heads/<spec>`, trims
surrounding whitespace and returns the remaining contents as the identifier
*without any 40-hex validation*, and fails with `InvalidRevision` when the
file is missing. -/
theorem c5_resolve_branch (fs : GitFS) (f : Nat) (rev : Str)
    (h1 : rev ≠ "HEAD".toList) (h2 : endsWithCaret rev = false)
    (h3 : isFullSha rev = false) (h4 : isPartialSha rev = false)
    (h5 : ancestorSplit rev = none) :
    resolveF fs (f + 1) rev =
      match fs.branchFile rev with
      | none => .error .invalidRevision
      | some contents => .ok ⟨rustTrim contents⟩ := by
  rw [resolveF, if_neg h1, if_neg (by simp [h2]), if_neg (by simp [h3]),
    if_neg (by simp [h4]), h5]

/-- Witness for C5 (amended) at the branch name drawn from the test suite. -/
theorem c5_resolve_branch_witness :
    ancestorSplit "introduce-tests".toList = none ∧
      resolveF refsFS 1 "introduce-tests".toList =
        match refsFS.branchFile "introduce-tests".toList with
        | none => .error .invalidRevision
        | some contents => .ok ⟨rustTrim contents⟩ :=
  ⟨by decide, c5_resolve_branch refsFS 0 "introduce-tests".toList
    (by decide) (by decide) (by decide) (by decide) (by decide)⟩

/-- C5 counterexample: the claim says resolve "requires the remaining
contents to be exactly 40 hex characters"; the code performs no such check:
a branch file containing `xyz` resolves successfully to the non-40-hex
identifier `xyz`. -/
theorem c5_resolve_branch_counterexample :
    resolveF refsFS 1 "b".toList = .ok ⟨"xyz".toList⟩ ∧
      isFullSha "xyz".toList = false := by
  exact ⟨by decide, by decide⟩

/-! ## C3: commit date parsing -/

theorem parseCommitDate_shape (ts : Str) (sg h1 h2 m1 m2 : Char) (rest : Str)
    (hts : ts ≠ []) (hall : ts.all isDigitChar = true) (hsg : sg = '+' ∨ sg = '-')
    (hh1 : isDigitChar h1 = true) (hh2 : isDigitChar h2 = true)
    (hm1 : isDigitChar m1 = true) (hm2 : isDigitChar m2 = true) :
    parseCommitDate (ts ++ ' ' :: sg :: h1 :: h2 :: m1 :: m2 :: rest) =
      if digitsVal ts < 2 ^ 63 then
        if chronoMinTimestamp ≤ (digitsVal ts : Int) ∧
            (digitsVal ts : Int) ≤ chronoMaxTimestamp then
          if -86400 < codeOffset sg h1 h2 m1 m2 ∧ codeOffset sg h1 h2 m1 m2 < 86400 then
            .ok ⟨(digitsVal ts : Int), codeOffset sg h1 h2 m1 m2⟩
          else .error (.invalidCommit ("invalid timezone".toList))
        else .error (.invalidCommit ("invalid timestamp".toList))
      else .error (.invalidCommit ("number too large".toList))
    := by
  have htw := takeWhile_append_all isDigitChar ts (sg :: h1 :: h2 :: m1 :: m2 :: rest)
    ' ' hall (by decide)
  unfold parseCommitDate
  simp only [htw.1, List.drop_left]
  rw [if_pos ⟨hts, hsg, hh1, hh2, hm1, hm2⟩]
  rfl

/-- C3 (amended).  `parse_commit_date` accepts an *unsigned* decimal
epoch-seconds field (the regex is `[0-9][0-9]*`: a leading sign never
matches, as part 5 states), subject to the `i64` and chrono range checks,
and the resulting fixed offset equals `tz_hours·3600 + tz_minutes·60`
where `tz_hours` is the *signed* two-digit hour and `tz_minutes` the
always-non-negative two-digit minute (`codeOffset`; for negative offsets
the minutes therefore count *toward* UTC, unlike the spec's
`(sign)·(HH·3600+MM·60)`); overflowing, out-of-chrono-range timestamps and
out-of-range offsets are rejected with an error (parts 2–4). -/
theorem c3_commit_date :
    (∀ (ts : Str) (sg h1 h2 m1 m2 : Char),
      ts ≠ [] → ts.all isDigitChar = true → (sg = '+' ∨ sg = '-') →
      isDigitChar h1 = true → isDigitChar h2 = true →
      isDigitChar m1 = true → isDigitChar m2 = true →
      digitsVal ts < 2 ^ 63 → (digitsVal ts : Int) ≤ chronoMaxTimestamp →
      -86400 < codeOffset sg h1 h2 m1 m2 → codeOffset sg h1 h2 m1 m2 < 86400 →
      parseCommitDate (ts ++ ' ' :: sg :: h1 :: h2 :: m1 :: m2 :: []) =
        .ok ⟨(digitsVal ts : Int), codeOffset sg h1 h2 m1 m2⟩) ∧
    (∀ (ts : Str) (sg h1 h2 m1 m2 : Char),
      ts ≠ [] → ts.all isDigitChar = true → (sg = '+' ∨ sg = '-') →
      isDigitChar h1 = true → isDigitChar h2 = true →
      isDigitChar m1 = true → isDigitChar m2 = true →
      2 ^ 63 ≤ digitsVal ts →
      parseCommitDate (ts ++ ' ' :: sg :: h1 :: h2 :: m1 :: m2 :: []) =
        .error (.invalidCommit ("number too large".toList))) ∧
    (∀ (ts : Str) (sg h1 h2 m1 m2 : Char),
      ts ≠ [] → ts.all isDigitChar = true → (sg = '+' ∨ sg = '-') →
      isDigitChar h1 = true → isDigitChar h2 = true →
      isDigitChar m1 = true → isDigitChar m2 = true →
      digitsVal ts < 2 ^ 63 → chronoMaxTimestamp < (digitsVal ts : Int) →
      parseCommitDate (ts ++ ' ' :: sg :: h1 :: h2 :: m1 :: m2 :: []) =
        .error (.invalidCommit ("invalid timestamp".toList))) ∧
    (∀ (ts : Str) (sg h1 h2 m1 m2 : Char),
      ts ≠ [] → ts.all isDigitChar = true → (sg = '+' ∨ sg = '-') →
      isDigitChar h1 = true → isDigitChar h2 = true →
      isDigitChar m1 = true → isDigitChar m2 = true →
      digitsVal ts < 2 ^ 63 → (digitsVal ts : Int) ≤ chronoMaxTimestamp →
      ¬(-86400 < codeOffset sg h1 h2 m1 m2 ∧ codeOffset sg h1 h2 m1 m2 < 86400) →
      parseCommitDate (ts ++ ' ' :: sg :: h1 :: h2 :: m1 :: m2 :: []) =
        .error (.invalidCommit ("invalid timezone".toList))) ∧
    (∀ (c : Char) (cs : Str) (d : CommitDateTime),
      parseCommitDate (c :: cs) = .ok d → isDigitChar c = true) := by
  have hmin : ∀ ts : Str, chronoMinTimestamp ≤ (digitsVal ts : Int) := fun ts =>
    le_trans (by norm_num [chronoMinTimestamp]) (Int.natCast_nonneg _)
  refine ⟨?_, ?_, ?_, ?_, ?_⟩
  · intro ts sg h1 h2 m1 m2 hts hall hsg hh1 hh2 hm1 hm2 h63 hmax hlo hhi
    rw [parseCommitDate_shape ts sg h1 h2 m1 m2 [] hts hall hsg hh1 hh2 hm1 hm2,
      if_pos h63, if_pos ⟨hmin ts, hmax⟩, if_pos ⟨hlo, hhi⟩]
  · intro ts sg h1 h2 m1 m2 hts hall hsg hh1 hh2 hm1 hm2 h63
    rw [parseCommitDate_shape ts sg h1 h2 m1 m2 [] hts hall hsg hh1 hh2 hm1 hm2,
      if_neg (by omega)]
  · intro ts sg h1 h2 m1 m2 hts hall hsg hh1 hh2 hm1 hm2 h63 hmax
    rw [parseCommitDate_shape ts sg h1 h2 m1 m2 [] hts hall hsg hh1 hh2 hm1 hm2,
      if_pos h63, if_neg (fun hcon => absurd hcon.2 (not_le.mpr hmax))]
  · intro ts sg h1 h2 m1 m2 hts hall hsg hh1 hh2 hm1 hm2 h63 hmax hco
    rw [parseCommitDate_shape ts sg h1 h2 m1 m2 [] hts hall hsg hh1 hh2 hm1 hm2,
      if_pos h63, if_pos ⟨hmin ts, hmax⟩, if_neg hco]
  · intro c cs d hyp
    by_contra hcd
    have hc : isDigitChar c = false := by
      cases h : isDigitChar c with
      | true => exact absurd h hcd
      | false => rfl
    have ht : (c :: cs).takeWhile isDigitChar = [] := by
      simp [List.takeWhile_cons, hc]
    unfold parseCommitDate at hyp
    rw [ht] at hyp
    simp only [List.length_nil, List.drop_zero] at hyp
    split at hyp
    · next sg' h1' h2' m1' m2' tl heq =>
      rw [if_neg (by simp)] at hyp
      exact absurd hyp (by simp)
    · exact absurd hyp (by simp)

/-- Witness for C3 (amended), part 1 applied at `1465028521 -0700`. -/
theorem c3_commit_date_witness :
    parseCommitDate ("1465028521".toList ++ ' ' :: '-' :: '0' :: '7' :: '0' :: '0' :: []) =
      .ok ⟨(digitsVal "1465028521".toList : Int), codeOffset '-' '0' '7' '0' '0'⟩ :=
  c3_commit_date.1 "1465028521".toList '-' '0' '7' '0' '0'
    (by decide) (by decide) (Or.inr rfl) (by decide) (by decide) (by decide) (by decide)
    (by decide) (by decide) (by decide) (by decide)

/-- C3 counterexample: the claim as stated is false twice over — a signed
epoch `-5` is rejected (the timestamp regex has no sign), and `0 -0830`
yields offset `-8·3600 + 30·60 = -27000` seconds where the claimed formula
`(-1)·(8·3600 + 30·60)` gives `-30600`. -/
theorem c3_commit_date_counterexample :
    (parseCommitDate ("-5 +0000".toList)).isOk = false ∧
      parseCommitDate ("0 -0830".toList) = .ok ⟨0, -27000⟩ ∧
      specOffset '-' '0' '8' '3' '0' = -30600 ∧ ((-27000 : Int) ≠ -30600) :=
  ⟨by decide, by decide, by decide, by decide⟩

/-! ## Commit parser lemmas (C4, C7, C9) -/

theorem stepLine_name (b : CommitBuilderS) (line : Str) (b1 : CommitBuilderS)
    (h : stepLine b line = .ok (some b1)) : b1.name = b.name := by
  simp only [stepLine] at h
  split_ifs at h with h0
  · exact absurd h (by simp)
  · repeat' split at h
    all_goals
      first
        | (simp only [CommitBuilderS.withTree, CommitBuilderS.withParent,
             CommitBuilderS.withAuthor, CommitBuilderS.withCommitter,
             Except.ok.injEq, Option.some.injEq] at h
           rw [← h])
        | exact absurd h (by simp)

theorem headerLoopAux_name (payload : Str) :
    ∀ (b : CommitBuilderS) (acc : Str) (b1 : CommitBuilderS) (rest : Str),
      headerLoopAux b acc payload = .ok (b1, rest) → b1.name = b.name := by
  induction payload with
  | nil =>
    intro b acc b1 rest h
    unfold headerLoopAux at h
    split at h
    · exact absurd h (by simp)
    · next heq =>
      simp only [Except.ok.injEq, Prod.mk.injEq] at h
      rw [← h.1]
    · next bb heq =>
      simp only [Except.ok.injEq, Prod.mk.injEq] at h
      rw [← h.1]
      exact stepLine_name b acc bb heq
  | cons c cs ih =>
    intro b acc b1 rest h
    unfold headerLoopAux at h
    split_ifs at h with hnl
    · split at h
      · exact absurd h (by simp)
      · simp only [Except.ok.injEq, Prod.mk.injEq] at h
        rw [← h.1]
      · next bb heq =>
        exact (ih bb [] b1 rest h).trans (stepLine_name b (acc ++ ['\n']) bb heq)
    · exact ih b (acc ++ [c]) b1 rest h

theorem build_ok (b : CommitBuilderS) (c : Commit) (h : b.build = .ok c) :
    c.name = b.name ∧ b.tree = some c.tree ∧ b.committer = some c.committer ∧
      b.author = some c.author ∧ b.message = some c.message ∧ c.parent = b.parent := by
  unfold CommitBuilderS.build at h
  split at h
  · exact absurd h (by simp)
  split at h
  · exact absurd h (by simp)
  split at h
  · exact absurd h (by simp)
  split at h
  · exact absurd h (by simp)
  rename_i x1 tr htr x2 co hco x3 au hau x4 msg hmsg
  injection h with h2
  rw [← h2]
  exact ⟨rfl, htr, hco, hau, hmsg, rfl⟩

theorem rustTrim_not_white_head (c : Char) (t : Str) (hc : isWhiteChar c = false) :
    rustTrim (c :: t) ≠ [] := by
  unfold rustTrim
  intro h
  rw [List.reverse_eq_nil_iff] at h
  have hall := List.dropWhile_eq_nil_iff.mp h
  have hd : List.dropWhile isWhiteChar (c :: t) = c :: t := by
    rw [List.dropWhile_cons, if_neg (by simp [hc])]
  rw [hd] at hall
  have := hall c (by simp)
  simp [hc] at this

theorem headerLoopAux_line (b : CommitBuilderS) (pre rest : Str)
    (h : ∀ c ∈ pre, c ≠ '\n') :
    ∀ acc : Str,
      headerLoopAux b acc (pre ++ '\n' :: rest) =
        match stepLine b ((acc ++ pre) ++ ['\n']) with
        | .error e => .error e
        | .ok none => .ok (b, rest)
        | .ok (some b1) => headerLoopAux b1 [] rest := by
  induction pre with
  | nil =>
    intro acc
    simp only [List.nil_append, List.append_nil]
    conv_lhs => rw [headerLoopAux]
    rw [if_pos rfl]
  | cons c cs ih =>
    intro acc
    have hc : ¬(c = '\n') := h c (by simp)
    simp only [List.cons_append]
    conv_lhs => rw [headerLoopAux]
    rw [if_neg hc]
    rw [ih (fun x hx => h x (List.mem_cons_of_mem c hx)) (acc ++ [c])]
    have heqa : (acc ++ [c]) ++ cs = acc ++ c :: cs := by simp
    rw [heqa]

/-! ## C4: multiple `parent` lines -/

theorem stepLine_parent (b : CommitBuilderS) (A : Str)
    (hlen : A.length = 40) (hhex : A.all isHexChar = true) :
    stepLine b (("parent ".toList ++ A) ++ ['\n']) = .ok (some (b.withParent A)) := by
  have hcons : "parent ".toList ++ A = 'p' :: ("arent ".toList ++ A) := by
    have hp : "parent ".toList = 'p' :: "arent ".toList := by decide
    rw [hp]
    rfl
  have htrim : rustTrim (("parent ".toList ++ A) ++ ['\n']).dropLast ≠ [] := by
    rw [List.dropLast_concat, hcons]
    exact rustTrim_not_white_head 'p' _ (by decide)
  have htree : treeCapture ("parent ".toList ++ A) = none := by
    have h5 : ("parent ".toList ++ A).take 5 = "paren".toList := by
      rw [List.take_append_of_le_length (by decide)]
      decide
    unfold treeCapture
    rw [if_neg]
    intro hcon
    rw [h5] at hcon
    exact absurd hcon.1 (by decide)
  have hpar : parentCapture ("parent ".toList ++ A) = some A := by
    have h7t : ("parent ".toList ++ A).take 7 = "parent ".toList := by
      rw [List.take_append_of_le_length (by decide)]
      decide
    have h7d : ("parent ".toList ++ A).drop 7 = A := by
      rw [show (7 : Nat) = ("parent ".toList).length from by decide, List.drop_left]
    simp only [parentCapture, h7t, h7d]
    rw [if_pos ⟨trivial, hlen, hhex⟩]
  simp only [stepLine]
  rw [if_neg htrim, List.dropLast_concat, htree]
  dsimp only
  rw [hpar]

/-- C4 (amended).  Each `parent <40-hex>` header line unconditionally
overwrites the parent stored in the builder
(`CommitBuilder::parent` assigns `self.parent = Some(..)`), so after
processing a `parent` line the loop continues from a builder whose parent
is that line's identifier regardless of what was stored before: the parsed
commit exposes the identifier of the *last* parent line encountered, and
earlier parent lines are discarded. -/
theorem c4_parent_overwrites (b : CommitBuilderS) (A rest : Str)
    (hlen : A.length = 40) (hhex : A.all isHexChar = true) :
    headerLoopAux b [] ("parent ".toList ++ A ++ '\n' :: rest) =
      headerLoopAux (b.withParent A) [] rest := by
  have hpre : ∀ c ∈ "parent ".toList ++ A, c ≠ '\n' := by
    intro c hc he
    rcases List.mem_append.mp hc with h1 | h2
    · rw [he] at h1
      revert h1
      decide
    · have hd := mem_of_all_eq_true hhex h2
      rw [he] at hd
      exact absurd hd (by decide)
  have hassoc : "parent ".toList ++ A ++ '\n' :: rest =
      ("parent ".toList ++ A) ++ '\n' :: rest := by simp
  rw [hassoc, headerLoopAux_line b ("parent ".toList ++ A) rest hpre []]
  simp only [List.nil_append]
  rw [stepLine_parent b A hlen hhex]

/-- Witness for C4 (amended): a builder already holding parent `hashA`
processes a `parent hashB` line and continues with `hashB` stored. -/
theorem c4_parent_overwrites_witness :
    headerLoopAux ((CommitBuilderS.new ⟨"x".toList⟩).withParent hashA) []
        ("parent ".toList ++ hashB ++ '\n' :: []) =
      headerLoopAux
        (((CommitBuilderS.new ⟨"x".toList⟩).withParent hashA).withParent hashB) [] [] :=
  c4_parent_overwrites ((CommitBuilderS.new ⟨"x".toList⟩).withParent hashA) hashB []
    (by decide) (by decide)

/-- C4 counterexample: with parent lines `hashA` then `hashB`, the parsed
record's parent is `hashB` — the identifier from the *last* parent line,
not the first as claimed. -/
theorem c4_parent_overwrites_counterexample :
    (parseCommit ⟨"x".toList⟩ c4payload).map (fun c => c.parent) =
        .ok (some ⟨hashB⟩) ∧
      some (Name.mk hashB) ≠ some (Name.mk hashA) :=
  ⟨by decide, by decide⟩

/-! ## C7: parsed commit name and missing mandatory fields -/

theorem parseCommit_eq (name : Name) (payload : Str) :
    parseCommit name payload =
      match headerLoop (CommitBuilderS.new name) payload with
      | .error e => .error e
      | .ok (b, rest) =>
        ({ b with message := some (rustTrim rest.dropLast) } : CommitBuilderS).build := by
  unfold parseCommit
  cases headerLoop (CommitBuilderS.new name) payload with
  | error e => rfl
  | ok x =>
    cases x with
    | mk b rest => rfl

/-- C7.  If `parse_commit` succeeds for identifier `x` then the returned
record carries `name = x` (the mandatory `tree`, `author`, `committer`,
`message` fields are present by the record type, and `build` only succeeds
when all of them were set); and when a mandatory field is absent at the
blank-line boundary, the result is a single `MissingField` error naming the
first missing field in `build`'s validation order: `tree`, then
`committer`, then `author` (`message` is always set before `build` runs). -/
theorem c7_parse_commit :
    (∀ (name : Name) (payload : Str) (c : Commit),
      parseCommit name payload = .ok c → c.name = name) ∧
    (∀ (name : Name) (payload : Str) (b : CommitBuilderS) (rest : Str),
      headerLoop (CommitBuilderS.new name) payload = .ok (b, rest) →
      (b.tree = none →
        parseCommit name payload = .error (.missingField "tree".toList)) ∧
      (b.tree ≠ none → b.committer = none →
        parseCommit name payload = .error (.missingField "committer".toList)) ∧
      (b.tree ≠ none → b.committer ≠ none → b.author = none →
        parseCommit name payload = .error (.missingField "author".toList))) := by
  constructor
  · intro name payload c h
    rw [parseCommit_eq] at h
    cases hh : headerLoop (CommitBuilderS.new name) payload with
    | error e =>
      rw [hh] at h
      exact absurd h (by simp)
    | ok br =>
      obtain ⟨b, rest⟩ := br
      rw [hh] at h
      have hb := build_ok _ _ h
      have hname : b.name = name := by
        have := headerLoopAux_name payload (CommitBuilderS.new name) [] b rest
          (by rw [← headerLoop]; exact hh)
        simpa [CommitBuilderS.new] using this
      rw [hb.1]
      exact hname
  · intro name payload b rest hh
    have hpc : parseCommit name payload =
        ({ b with message := some (rustTrim rest.dropLast) } : CommitBuilderS).build := by
      rw [parseCommit_eq, hh]
    refine ⟨?_, ?_, ?_⟩
    · intro htree
      rw [hpc]
      unfold CommitBuilderS.build
      dsimp only
      rw [htree]
    · intro htree hco
      obtain ⟨tr, htr⟩ := Option.ne_none_iff_exists'.mp htree
      rw [hpc]
      unfold CommitBuilderS.build
      dsimp only
      rw [htr, hco]
    · intro htree hcom hau
      obtain ⟨tr, htr⟩ := Option.ne_none_iff_exists'.mp htree
      obtain ⟨co, hco⟩ := Option.ne_none_iff_exists'.mp hcom
      rw [hpc]
      unfold CommitBuilderS.build
      dsimp only
      rw [htr, hco, hau]

/-- Witness for C7: the name of a concretely parsed commit, and the
`MissingField "committer"` failure on a concrete deficient payload. -/
theorem c7_parse_commit_witness :
    c4commit.name = ⟨"x".toList⟩ ∧
      parseCommit ⟨"x".toList⟩ c7payload = .error (.missingField "committer".toList) :=
  ⟨c7_parse_commit.1 ⟨"x".toList⟩ c4payload c4commit (by decide),
   ((c7_parse_commit.2 ⟨"x".toList⟩ c7payload c7builder [] (by decide)).2.1
     (by decide) (by decide))⟩

/-! ## C9: the commit message -/

/-- C9 (amended).  The parsed message equals the remainder of the payload
after the blank line with its final character removed — `message.pop()`
drops the last character whether or not it is a newline — and the result
whitespace-trimmed. -/
theorem c9_message (name : Name) (payload : Str) (b : CommitBuilderS) (rest : Str)
    (hh : headerLoop (CommitBuilderS.new name) payload = .ok (b, rest))
    (c : Commit) (hc : parseCommit name payload = .ok c) :
    c.message = rustTrim rest.dropLast := by
  rw [parseCommit_eq, hh] at hc
  have hb := build_ok _ _ hc
  have h2 : some (rustTrim rest.dropLast) = some c.message := hb.2.2.2.2.1
  injection h2 with h3
  exact h3.symm

/-- Witness for C9 (amended), including the boundary behaviour the claim
cites: a message body consisting of a single newline parses to the empty
message. -/
theorem c9_message_witness :
    c9commit.message = rustTrim ("\n".toList).dropLast ∧ c9commit.message = [] :=
  ⟨c9_message ⟨"x".toList⟩ c9nlPayload c9builder "\n".toList (by decide) c9commit
    (by decide), by decide⟩

/-- C9 counterexample: for the body `abc` (no trailing newline) the code's
`pop` still deletes the final character, giving message `ab`, while the
claimed "single trailing newline stripped, then trimmed" semantics gives
`abc`. -/
theorem c9_message_counterexample :
    (parseCommit ⟨"x".toList⟩ c9payload).map (fun c => c.message) = .ok "ab".toList ∧
      rustTrim (specStripTrailingNewline "abc".toList) = "abc".toList ∧
      "ab".toList ≠ "abc".toList :=
  ⟨by decide, by decide, by decide⟩

/-! ## C6: read_header error characterization -/

/-- C6 (amended).  `read_header` fails exactly when the space-delimited
type token is not `blob`/`tree`/`commit`, or the NUL-delimited size token
does not parse as a `u64`.  Reaching end of stream before a delimiter does
*not* by itself force an error: `read_until` then returns what it read and
the unconditional `pop` drops the final byte, so the truncated token may
still be accepted (see the counterexample). -/
theorem c6_read_header (l : List Nat) :
    (readHeaderB l).isOk = true ↔
      ((readUntilB 0x20 l).1 = asciiBytes "blob" ∨
        (readUntilB 0x20 l).1 = asciiBytes "tree" ∨
        (readUntilB 0x20 l).1 = asciiBytes "commit") ∧
      (parseU64bytes (readUntilB 0x0 (readUntilB 0x20 l).2).1).isSome = true := by
  unfold readHeaderB readTypeB readSizeB
  by_cases h1 : (readUntilB 0x20 l).1 = asciiBytes "blob" <;>
    by_cases h2 : (readUntilB 0x20 l).1 = asciiBytes "tree" <;>
      by_cases h3 : (readUntilB 0x20 l).1 = asciiBytes "commit" <;>
        simp only [h1, h2, h3, if_true, if_false, ite_true, ite_false] <;>
          cases hp : parseU64bytes (readUntilB 0x0 (readUntilB 0x20 l).2).1 <;>
            simp_all [Bind.bind, Except.bind, Except.isOk, Except.toBool]

/-- C6 counterexample: the stream `commit 384` ends before any NUL
delimiter, yet `read_header` succeeds — the size `pop` drops the final
`4` and `38` parses fine — refuting the claim's "reaches end-of-stream
before either delimiter" error condition. -/
theorem c6_read_header_counterexample :
    readHeaderB (asciiBytes "commit 384") = .ok (⟨.commit, 38⟩, []) ∧
      ¬(0 ∈ asciiBytes "commit 384") :=
  ⟨by decide, by decide⟩

/-! ## C8 and C10: index decoding lemmas -/

theorem takeExact_ok (n : Nat) (l a r : List Nat) (h : takeExact n l = some (a, r)) :
    a.length = n ∧ r = l.drop n := by
  unfold takeExact at h
  split_ifs at h with hn
  · injection h with h2
    rw [Prod.mk.injEq] at h2
    constructor
    · rw [← h2.1, List.length_take]
      omega
    · exact h2.2.symm

theorem readU32_rest (l : List Nat) (n : Nat) (r : List Nat)
    (h : readU32 l = some (n, r)) : r = l.drop 4 := by
  rcases l with _ | ⟨b0, _ | ⟨b1, _ | ⟨b2, _ | ⟨b3, rest⟩⟩⟩⟩ <;>
    simp_all [readU32]

theorem isHexChar_hexDigitChar (n : Nat) (h : n < 16) :
    isHexChar (hexDigitChar n) = true := by
  interval_cases n <;> decide

theorem byteHex_all_hex (b : Nat) : (byteHex b).all isHexChar = true := by
  unfold byteHex
  simp only [List.all_cons, List.all_nil, Bool.and_true, Bool.and_eq_true]
  exact ⟨isHexChar_hexDigitChar _ (Nat.mod_lt _ (by omega)),
    isHexChar_hexDigitChar _ (Nat.mod_lt _ (by omega))⟩

theorem flatMap_byteHex_length (bs : List Nat) :
    (bs.flatMap byteHex).length = 2 * bs.length := by
  induction bs with
  | nil => simp
  | cons b t ih =>
    simp only [List.flatMap_cons, List.length_append, ih, List.length_cons]
    have : (byteHex b).length = 2 := rfl
    omega

theorem flatMap_byteHex_all_hex (bs : List Nat) :
    (bs.flatMap byteHex).all isHexChar = true := by
  induction bs with
  | nil => simp
  | cons b t ih =>
    simp only [List.flatMap_cons, List.all_append, ih, Bool.and_true, byteHex_all_hex]

theorem entryReadAfterSha_sha1 (env : IdxFS) (v : Nat) (s : Str) (l : List Nat)
    (e : EntryS) (r : List Nat) (h : entryReadAfterSha env v s l = .ok (e, r)) :
    e.sha1 = s := by
  unfold entryReadAfterSha at h
  simp only [Bind.bind, Pure.pure] at h
  unfold Except.bind Except.pure at h
  unfold Option.elim at h
  repeat'
    first
      | split at h
      | simp only [] at h
  all_goals first
    | (injection h with h2
       rw [Prod.mk.injEq] at h2
       rw [← h2.1])
    | injection h

theorem entryRead_ok_sha1 (env : IdxFS) (v : Nat) (l : List Nat) (e : EntryS)
    (r : List Nat) (h : entryRead env v l = .ok (e, r)) :
    ∃ bs : List Nat, bs.length = 20 ∧ e.sha1 = bs.flatMap byteHex := by
  unfold entryRead at h
  cases h40 : takeExact 40 l with
  | none =>
    rw [h40] at h
    exact absurd h (by simp [Option.elim, Bind.bind, Except.bind])
  | some p1 =>
    obtain ⟨x1, l1⟩ := p1
    rw [h40] at h
    simp only [Option.elim, Bind.bind, Except.bind] at h
    cases h20 : takeExact 20 l1 with
    | none =>
      rw [h20] at h
      exact absurd h (by simp [Option.elim, Bind.bind, Except.bind])
    | some p2 =>
      obtain ⟨bs, l2⟩ := p2
      rw [h20] at h
      simp only [Option.elim, Bind.bind, Except.bind] at h
      exact ⟨bs, (takeExact_ok 20 l1 bs l2 h20).1,
        entryReadAfterSha_sha1 env v _ l2 e r h⟩

theorem entriesLoop_length (env : IdxFS) (v : Nat) :
    ∀ (n : Nat) (l : List Nat) (es : List EntryS) (r : List Nat),
      entriesLoop env v n l = .ok (es, r) → es.length = n := by
  intro n
  induction n with
  | zero =>
    intro l es r h
    unfold entriesLoop at h
    injection h with h2
    rw [Prod.mk.injEq] at h2
    rw [← h2.1]
    rfl
  | succ n ih =>
    intro l es r h
    unfold entriesLoop at h
    cases he : entryRead env v l with
    | error e0 =>
      rw [he] at h
      exact absurd h (by simp [Bind.bind, Except.bind])
    | ok p =>
      obtain ⟨e0, l1⟩ := p
      rw [he] at h
      simp only [Bind.bind, Except.bind] at h
      cases hl : entriesLoop env v n l1 with
      | error e1 =>
        rw [hl] at h
        exact absurd h (by simp [Bind.bind, Except.bind])
      | ok q =>
        obtain ⟨es1, l2⟩ := q
        rw [hl] at h
        simp only [Bind.bind, Except.bind] at h
        injection h with h2
        rw [Prod.mk.injEq] at h2
        rw [← h2.1]
        simp [ih l1 es1 l2 hl]

theorem entriesLoop_sha1 (env : IdxFS) (v : Nat) :
    ∀ (n : Nat) (l : List Nat) (es : List EntryS) (r : List Nat),
      entriesLoop env v n l = .ok (es, r) →
      ∀ e ∈ es, e.sha1.length = 40 ∧ e.sha1.all isHexChar = true := by
  intro n
  induction n with
  | zero =>
    intro l es r h
    unfold entriesLoop at h
    injection h with h2
    rw [Prod.mk.injEq] at h2
    rw [← h2.1]
    intro e he
    exact absurd he (by simp)
  | succ n ih =>
    intro l es r h
    unfold entriesLoop at h
    cases he0 : entryRead env v l with
    | error e0 =>
      rw [he0] at h
      exact absurd h (by simp [Bind.bind, Except.bind])
    | ok p =>
      obtain ⟨e0, l1⟩ := p
      rw [he0] at h
      simp only [Bind.bind, Except.bind] at h
      cases hl : entriesLoop env v n l1 with
      | error e1 =>
        rw [hl] at h
        exact absurd h (by simp [Bind.bind, Except.bind])
      | ok q =>
        obtain ⟨es1, l2⟩ := q
        rw [hl] at h
        simp only [Bind.bind, Except.bind] at h
        injection h with h2
        rw [Prod.mk.injEq] at h2
        rw [← h2.1]
        intro e he
        rcases List.mem_cons.mp he with he | he
        · obtain ⟨bs, hbs, hsha⟩ := entryRead_ok_sha1 env v l e0 l1 he0
          rw [he, hsha]
          constructor
          · rw [flatMap_byteHex_length, hbs]
          · exact flatMap_byteHex_all_hex bs
        · exact ih l1 es1 l2 hl e he

/-- C8.  For every index file (byte stream) whose parse succeeds with
version in {2,3,4}: the number of entries in the returned `Index` equals
the `u32` entry count declared in the header (the big-endian word at byte
offset 8), and every entry's `sha1` — produced by `format!("{:02x}", ·)`
over the 20 SHA-1 bytes — is exactly 40 lower-case hexadecimal characters.
(The proof does not actually need the version restriction.) -/
theorem c8_index_entries (env : IdxFS) (l : List Nat) (idx : IndexS)
    (h : indexRead env l = .ok idx)
    (hv : idx.version = 2 ∨ idx.version = 3 ∨ idx.version = 4) :
    (∃ n r, readU32 (l.drop 8) = some (n, r) ∧ idx.entries.length = n) ∧
      ∀ e ∈ idx.entries, e.sha1.length = 40 ∧ e.sha1.all isHexChar = true := by
  unfold indexRead at h
  cases hm : takeExact 4 l with
  | none =>
    rw [hm] at h
    exact absurd h (by simp [Option.elim, Bind.bind, Except.bind])
  | some pm =>
    obtain ⟨magic, l1⟩ := pm
    rw [hm] at h
    simp only [Option.elim, Bind.bind, Except.bind] at h
    split_ifs at h with hmagic
    · cases hv32 : readU32 l1 with
      | none =>
        rw [hv32] at h
        exact absurd h (by simp [Option.elim, Bind.bind, Except.bind])
      | some pv =>
        obtain ⟨v, l2⟩ := pv
        rw [hv32] at h
        simp only [Option.elim, Bind.bind, Except.bind] at h
        cases hn32 : readU32 l2 with
        | none =>
          rw [hn32] at h
          exact absurd h (by simp [Option.elim, Bind.bind, Except.bind])
        | some pn =>
          obtain ⟨n, l3⟩ := pn
          rw [hn32] at h
          simp only [Option.elim, Bind.bind, Except.bind] at h
          cases hel : entriesLoop env v n l3 with
          | error e0 =>
            rw [hel] at h
            exact absurd h (by simp [Option.elim, Bind.bind, Except.bind])
          | ok pes =>
            obtain ⟨es, l4⟩ := pes
            rw [hel] at h
            simp only [Option.elim, Bind.bind, Except.bind] at h
            injection h with h2
            have e1 : l1 = l.drop 4 := (takeExact_ok 4 l magic l1 hm).2
            have e2 : l2 = l1.drop 4 := readU32_rest l1 v l2 hv32
            constructor
            · refine ⟨n, l3, ?_, ?_⟩
              · rw [e1, List.drop_drop] at e2
                norm_num at e2
                rw [← e2]
                exact hn32
              · rw [← h2]
                exact entriesLoop_length env v n l3 es l4 hel
            · intro e he
              rw [← h2] at he
              exact entriesLoop_sha1 env v n l3 es l4 hel e he

/-- Witness for C8 on a concrete one-entry version-2 index file. -/
theorem c8_index_entries_witness :
    (∃ n r, readU32 (version2Index.drop 8) = some (n, r) ∧
      (IndexS.mk 2 [pathAEntry]).entries.length = n) ∧
      ∀ e ∈ (IndexS.mk 2 [pathAEntry]).entries,
        e.sha1.length = 40 ∧ e.sha1.all isHexChar = true :=
  c8_index_entries idIdxFS version2Index ⟨2, [pathAEntry]⟩ (by decide) (Or.inl rfl)

/-- C10.  `Index::read` never validates the version: (1) whenever parsing
succeeds, the returned `version` is the big-endian `u32` at byte offset 4,
verbatim; (2) the version influences entry parsing only through the two
thresholds `version ≥ 3` (extended flags) and `version ≥ 4` (no padding),
so any two versions on the same side of both thresholds parse entries
identically; (3) concretely, version 5 and version 0 files — both outside
{2,3,4} — parse successfully when the bytes fit the corresponding layout. -/
theorem c10_index_version :
    (∀ (env : IdxFS) (l : List Nat) (idx : IndexS),
      indexRead env l = .ok idx →
        ∃ r, readU32 (l.drop 4) = some (idx.version, r)) ∧
    (∀ (env : IdxFS) (v v2 : Nat) (l : List Nat),
      ((3 ≤ v) ↔ (3 ≤ v2)) → ((4 ≤ v) ↔ (4 ≤ v2)) →
      entryRead env v l = entryRead env v2 l) ∧
    indexRead idIdxFS version5Index = .ok ⟨5, [pathAEntry]⟩ ∧
    indexRead idIdxFS version0Index = .ok ⟨0, [pathAEntry]⟩ := by
  refine ⟨?_, ?_, by decide, by decide⟩
  · intro env l idx h
    unfold indexRead at h
    cases hm : takeExact 4 l with
    | none =>
      rw [hm] at h
      exact absurd h (by simp [Option.elim, Bind.bind, Except.bind])
    | some pm =>
      obtain ⟨magic, l1⟩ := pm
      rw [hm] at h
      simp only [Option.elim, Bind.bind, Except.bind] at h
      split_ifs at h with hmagic
      · cases hv32 : readU32 l1 with
        | none =>
          rw [hv32] at h
          exact absurd h (by simp [Option.elim, Bind.bind, Except.bind])
        | some pv =>
          obtain ⟨v, l2⟩ := pv
          rw [hv32] at h
          simp only [Option.elim, Bind.bind, Except.bind] at h
          cases hn32 : readU32 l2 with
          | none =>
            rw [hn32] at h
            exact absurd h (by simp [Option.elim, Bind.bind, Except.bind])
          | some pn =>
            obtain ⟨n, l3⟩ := pn
            rw [hn32] at h
            simp only [Option.elim, Bind.bind, Except.bind] at h
            cases hel : entriesLoop env v n l3 with
            | error e0 =>
              rw [hel] at h
              exact absurd h (by simp [Option.elim, Bind.bind, Except.bind])
            | ok pes =>
              obtain ⟨es, l4⟩ := pes
              rw [hel] at h
              simp only [Option.elim, Bind.bind, Except.bind] at h
              injection h with h2
              refine ⟨l2, ?_⟩
              rw [← (takeExact_ok 4 l magic l1 hm).2, ← h2]
              exact hv32
  · intro env v v2 l h3 h4
    have hsub : ∀ (s : Str) (l2 : List Nat),
        entryReadAfterSha env v s l2 = entryReadAfterSha env v2 s l2 := by
      intro s l2
      unfold entryReadAfterSha
      simp only [show (3 ≤ v) = (3 ≤ v2) from propext h3,
        show (4 ≤ v) = (4 ≤ v2) from propext h4]
    unfold entryRead
    simp only [hsub]

/-- Witness for C10: part 1 at the concrete version-5 file, and part 2 at
versions 0 and 2 (same side of both thresholds) on concrete entry bytes. -/
theorem c10_index_version_witness :
    (∃ r, readU32 (version5Index.drop 4) =
      some ((IndexS.mk 5 [pathAEntry]).version, r)) ∧
      entryRead idIdxFS 0 entryBytesNoExt = entryRead idIdxFS 2 entryBytesNoExt :=
  ⟨c10_index_version.1 idIdxFS version5Index ⟨5, [pathAEntry]⟩ (by decide),
   c10_index_version.2.1 idIdxFS 0 2 entryBytesNoExt (by decide) (by decide)⟩
